import Mathlib

/-!
Shallow embedding of the Sudoku solver in `src/1_sudoku/sudoku/board.py`.

The Python `Board` class keeps a `BoardState = Dict[str, str]` whose keys are
always exactly the 81 cell names produced by `Board.boxes()`, inserted in that
order by `grid_values` and only ever updated in place.  We therefore embed a
board state positionally: entry `i` of the list is the candidate string of the
cell `boxes[i]`.  Candidate strings are embedded as `List Char`.

All loops of the Python code are folds over the same lists, in the same order,
as the source.  The two Python `set` iterations (`peers` in `eliminate` and
`values` in `_remove_values_in_boxes`) have order-independent effects, so sets
of cells and sets of characters are embedded as duplicate-free lists in first
occurrence order.
-/

set_option maxRecDepth 4000
set_option maxHeartbeats 2000000

namespace Board

/-- `Board._rows` -/
def rowsL : List Char := "ABCDEFGHI".toList

/-- `Board._cols` -/
def colsL : List Char := "123456789".toList

/-- `Board._values` -/
def valuesL : List Char := "123456789".toList

/-- `Board._row_squares` -/
def row_squares : List (List Char) := ["ABC".toList, "DEF".toList, "GHI".toList]

/-- `Board._col_squares` -/
def col_squares : List (List Char) := ["123".toList, "456".toList, "789".toList]

/-- `Board.cross`: zip characters from two strings into two-character keys. -/
def cross (xs ys : List Char) : List String :=
  xs.flatMap fun x => ys.map fun y => String.mk [x, y]

/-- `Board.boxes()` -/
def boxes : List String := cross rowsL colsL

/-- `Board.num_boxes()` -/
def num_boxes : Nat := rowsL.length * colsL.length

/-- `Board._row_units()` -/
def row_units : List (List String) := rowsL.map fun r => cross [r] colsL

/-- `Board._column_units()` -/
def column_units : List (List String) := colsL.map fun c => cross rowsL [c]

/-- `Board._square_units()` -/
def square_units : List (List String) :=
  row_squares.flatMap fun rs => col_squares.map fun cs => cross rs cs

/-- digit character to its integer value, `int(vl)` in Python -/
def digitVal (c : Char) : Nat := c.toNat - 48

/-- `Board._diagonal_units()`: `unit_1` pairs `rows[int(vl)-1]` with `vl`,
`unit_2` the same on the reversed row string. -/
def diagonal_units : List (List String) :=
  let unit1 := valuesL.map fun vl => String.mk [rowsL.getD (digitVal vl - 1) ' ', vl]
  let unit2 := valuesL.map fun vl => String.mk [rowsL.reverse.getD (digitVal vl - 1) ' ', vl]
  [unit1, unit2]

/-- `Board.all_units()`: rows ++ columns ++ squares, plus the diagonals when
`diagonal_mode` is on. -/
def all_units (dm : Bool) : List (List String) :=
  (row_units ++ column_units ++ square_units) ++ (if dm then diagonal_units else [])

/-- `Board.units(box)`: the units containing the cell, in `all_units` order. -/
def unitsOf (dm : Bool) (b : String) : List (List String) :=
  (all_units dm).filter fun u => b ∈ u

/-- `Board.peers(box)`: `set(sum(self.units(bx), [])) - set([bx])`, embedded as a
duplicate-free list in first-occurrence order (its uses are order-independent). -/
def peersL (dm : Bool) (b : String) : List String :=
  (((unitsOf dm b).flatten).dedup).filter fun x => x ≠ b

/-- Size of the peer set of a cell. -/
def peersCard (dm : Bool) (b : String) : Nat := (peersL dm b).length

/-! ## Board states -/

/-- A board state: entry `i` is the candidate string of cell `boxes[i]`. -/
abbrev BoardState := List (List Char)

/-- Index of a cell name in a list of cell names (`boxes.index`-style; returns
the length when absent, like Python's dict lookup failing — such lookups never
happen in the embedded code). -/
def idxOf (b : String) : List String → Nat
  | [] => 0
  | x :: xs => if x = b then 0 else idxOf b xs + 1

/-- `board_dict[b]` -/
def lookup (s : BoardState) (b : String) : List Char := s.getD (idxOf b boxes) []

/-- `board_dict[b] = v` -/
def updateB (s : BoardState) (b : String) (v : List Char) : BoardState :=
  s.set (idxOf b boxes) v

/-- Python `str.replace(pat, '')`, fuel-structured so that it evaluates in the
kernel.  The fuel is always instantiated with the string length, which suffices
for every call. -/
def replaceFuel (pat : List Char) : Nat → List Char → List Char
  | 0, s => s
  | _ + 1, [] => []
  | fuel + 1, a :: rest =>
      if (a :: rest).take pat.length = pat then
        replaceFuel pat fuel ((a :: rest).drop pat.length)
      else
        a :: replaceFuel pat fuel rest

/-- Python `s.replace(pat, '')`.  `s.replace('', '')` is the identity. -/
def pyReplace (s pat : List Char) : List Char :=
  match pat with
  | [] => s
  | _ :: _ => replaceFuel pat s.length s

/-! ## Operations of the solver -/

/-- `Board.grid_values`: length check, then `'.'` becomes the full alphabet and
any other character a singleton; `None` embeds the raised `ValueError`.
Entry `i` of the produced state belongs to `boxes[i]`, exactly as the Python
loop inserts `boxes[index] ↦ value`. -/
def grid_values (g : List Char) : Option BoardState :=
  if g.length = num_boxes then
    some (g.map fun ch => if ch = '.' then valuesL else [ch])
  else none

/-- `Board.board_to_str`: concatenate `value + ','` over all boxes, then drop
the trailing character. -/
def board_to_str (s : BoardState) : List Char :=
  (boxes.foldl (fun acc b => acc ++ lookup s b ++ [',']) []).dropLast

/-- Inner loop body of `eliminate`: strip `digit` from one peer. -/
def elimPeerStep (digit : List Char) (st2 : BoardState) (peer : String) : BoardState :=
  updateB st2 peer (pyReplace (lookup st2 peer) digit)

/-- Outer loop body of `eliminate`: fetch the (current) digit of a solved box
and strip it from all the box's peers. -/
def elimBoxStep (dm : Bool) (st : BoardState) (box : String) : BoardState :=
  let digit := lookup st box
  (peersL dm box).foldl (elimPeerStep digit) st

/-- `Board.eliminate`: for each box solved in the incoming state, fetch its
(current) digit and strip it from all peers. -/
def eliminate (dm : Bool) (s : BoardState) : BoardState :=
  let solved := boxes.filter fun b => (lookup s b).length = 1
  solved.foldl (elimBoxStep dm) s

/-- Inner loop body of `only_choice`: if exactly one box of the unit admits
the digit, force that box to the singleton. -/
def ocDigitStep (unit : List String) (st2 : BoardState) (d : Char) : BoardState :=
  match unit.filter (fun b => d ∈ lookup st2 b) with
  | [b] => updateB st2 b [d]
  | _ => st2

/-- Outer loop body of `only_choice`: run the digit loop over one unit. -/
def ocUnitStep (st : BoardState) (unit : List String) : BoardState :=
  valuesL.foldl (ocDigitStep unit) st

/-- `Board.only_choice`: for every unit and digit, if exactly one box of the
unit admits the digit, force that box to the singleton. -/
def only_choice (dm : Bool) (s : BoardState) : BoardState :=
  (all_units dm).foldl ocUnitStep s

/-- `Board.num_solved_boxes` -/
def num_solved_boxes (s : BoardState) : Nat :=
  (boxes.filter fun b => (lookup s b).length = 1).length

/-- Stable insertion (equal keys keep their relative order), used to embed
Python's stable `sorted(..., key=len)`. -/
def insertByLen (s : BoardState) (a : String) : List String → List String
  | [] => [a]
  | b :: bs =>
      if (lookup s b).length ≤ (lookup s a).length then b :: insertByLen s a bs
      else a :: b :: bs

/-- `Board.sorted_box_possibilities`: boxes with more than one candidate,
stably sorted by candidate count. -/
def sorted_box_possibilities (s : BoardState) : List String :=
  (boxes.filter fun b => 1 < (lookup s b).length).foldl
    (fun acc b => insertByLen s b acc) []

/-- One body of the `while` loop of `reduce_puzzle`: `eliminate` then
`only_choice`. -/
def passOnce (dm : Bool) (s : BoardState) : BoardState :=
  only_choice dm (eliminate dm s)

/-- `pass` iterated `k` times. -/
def passIter (dm : Bool) : Nat → BoardState → BoardState
  | 0, s => s
  | k + 1, s => passIter dm k (passOnce dm s)

/-- `Board.reduce_puzzle`: loop `eliminate`/`only_choice`; return `None` when a
pass ends with zero solved boxes, stop when the solved count stalls.  The fuel
argument bounds the number of passes; every claim is either fuel-generic or
instantiated with sufficient fuel. -/
def reduce_puzzle (dm : Bool) : Nat → BoardState → Option BoardState
  | 0, _ => none
  | fuel + 1, s =>
      let before := num_solved_boxes s
      let s' := passOnce dm s
      let after := num_solved_boxes s'
      if after = 0 then none
      else if before = after then some s'
      else reduce_puzzle dm fuel s'

/-- `Board.validate`: every unit's set of cell values must equal
`set('123456789')`, the set of nine singleton strings. -/
def validate (dm : Bool) (s : BoardState) : Bool :=
  let complete := valuesL.map fun c => [c]
  (all_units dm).all fun unit =>
    let unitSet := (unit.map fun b => lookup s b).dedup
    unitSet.all (fun v => v ∈ complete) && complete.all (fun v => v ∈ unitSet)

/-- `Board.search`: reduce, check for a validated full assignment, otherwise
branch on the first box of `sorted_box_possibilities`.  Fuel bounds the
recursion depth (and the pass count of the inner reductions). -/
def search (dm : Bool) : Nat → BoardState → Option BoardState
  | 0, _ => none
  | fuel + 1, s =>
      match reduce_puzzle dm (fuel + 1) s with
      | none => none
      | some reduced =>
          if num_solved_boxes reduced = num_boxes then
            if validate dm reduced then some reduced else none
          else
            match sorted_box_possibilities reduced with
            | [] => none
            | smallest :: _ =>
                (lookup reduced smallest).foldl
                  (fun acc c =>
                    match acc with
                    | some r => some r
                    | none => search dm fuel (updateB reduced smallest [c]))
                  none

/-- The `for value in values` loop of `_remove_values_in_boxes`: strip each
value while more than one candidate remains. -/
def removeLoop (values ns : List Char) : List Char :=
  values.foldl (fun ns v => if 1 < ns.length then pyReplace ns [v] else ns) ns

/-- Loop body of `_remove_values_in_boxes` for one box: skip the box when its
candidate set is a subset of `values`, otherwise run the removal loop and
write the result back if it changed. -/
def rvbStep (values : List Char) (st2 : BoardState) (box : String) : BoardState :=
  let new0 := lookup st2 box
  if ¬ (new0.all fun c => c ∈ values) then
    let newSet := removeLoop values new0
    if lookup st2 box ≠ newSet then updateB st2 box newSet else st2
  else st2

/-- `Board._remove_values_in_boxes`.  (`values` is a Python set of single
characters; its iteration order does not affect the result, and it is embedded
as a duplicate-free list.) -/
def remove_values_in_boxes (st : BoardState) (values : List Char)
    (bxs : List String) : BoardState :=
  bxs.foldl (rvbStep values) st

/-- Inner loop body of `naked_twins` for one unit: if exactly two boxes of the
unit carry exactly the candidate string `options`, strip its values from the
remaining boxes of the unit. -/
def ntUnitStep (options : List Char) (st2 : BoardState) (unit : List String) : BoardState :=
  let twins := unit.filter fun b => lookup st2 b = options
  if twins.length = 2 then
    let bxs := unit.filter fun bx => bx ∉ twins
    remove_values_in_boxes st2 options.dedup bxs
  else st2

/-- Outer loop body of `naked_twins`: fetch the box's current candidate pair
once, then run the unit loop over the box's units. -/
def ntBoxStep (dm : Bool) (st : BoardState) (box : String) : BoardState :=
  let options := lookup st box
  (unitsOf dm box).foldl (ntUnitStep options) st

/-- `Board.naked_twins`: for every box with exactly two candidates (in the
incoming state), and every unit of that box, if exactly two boxes of the unit
carry that exact candidate string, strip its two values from the remaining
boxes of the unit. -/
def naked_twins (dm : Bool) (s : BoardState) : BoardState :=
  let twoValueBoxes := boxes.filter fun b => (lookup s b).length = 2
  twoValueBoxes.foldl (ntBoxStep dm) s

/-- Inner loop body of `naked_multi` for one unit: collect the other boxes of
the unit whose candidate sets are non-trivial subsets of the leader's; when
`size - 1` many are found, strip the leader's values from the whole unit.
(`size - 1` is Python integer arithmetic, hence the cast through `Int`.) -/
def nmUnitStep (size : Nat) (leader : String) (options : List Char)
    (st2 : BoardState) (unit : List String) : BoardState :=
  let subsets := ((unit.filter fun b => b ≠ leader).map
      fun b => (lookup st2 b).dedup).filter
    fun sub => 1 < sub.length ∧ sub ⊆ options
  if (subsets.length : Int) = (size : Int) - 1 then
    remove_values_in_boxes st2 options unit
  else st2

/-- Outer loop body of `naked_multi`. -/
def nmBoxStep (dm : Bool) (size : Nat) (st : BoardState) (leader : String) : BoardState :=
  let options := (lookup st leader).dedup
  (unitsOf dm leader).foldl (nmUnitStep size leader options) st

/-- `Board.naked_multi`: for every box with exactly `size` candidates, run the
unit loop over the box's units. -/
def naked_multi (dm : Bool) (s : BoardState) (size : Nat) : BoardState :=
  let sizeValueBoxes := boxes.filter fun b => (lookup s b).length = size
  sizeValueBoxes.foldl (nmBoxStep dm size) s


/-! ## Basic facts about the cell index, lookup and update -/

theorem idxOf_lt_length {b : String} : ∀ {l : List String}, b ∈ l → idxOf b l < l.length := by
  intro l h
  induction l with
  | nil => cases h
  | cons x xs ih =>
      by_cases hx : x = b
      · simp [idxOf, hx]
      · have hb : b ∈ xs := by
          cases h with
          | head => exact absurd rfl hx
          | tail _ h => exact h
        simpa [idxOf, hx] using ih hb

theorem getD_idxOf {b : String} {d : String} :
    ∀ {l : List String}, b ∈ l → l.getD (idxOf b l) d = b := by
  intro l h
  induction l with
  | nil => cases h
  | cons x xs ih =>
      by_cases hx : x = b
      · simp [idxOf, hx]
      · have hb : b ∈ xs := by
          cases h with
          | head => exact absurd rfl hx
          | tail _ h => exact h
        simpa [idxOf, hx] using ih hb

theorem idxOf_inj {b c : String} {l : List String} (hb : b ∈ l) (hc : c ∈ l)
    (h : idxOf b l = idxOf c l) : b = c := by
  have := getD_idxOf (d := "") hb
  rw [h, getD_idxOf (d := "") hc] at this
  exact this.symm

theorem getD_set_self {α} {l : List α} {n : Nat} {v d : α} (h : n < l.length) :
    (l.set n v).getD n d = v := by
  induction l generalizing n with
  | nil => simp at h
  | cons x xs ih =>
      cases n with
      | zero => simp [List.set, List.getD]
      | succ m =>
          have hm : m < xs.length := by simpa using h
          simpa [List.set, List.getD] using ih hm

theorem getD_set_ne {α} {l : List α} {m n : Nat} {v d : α} (h : m ≠ n) :
    (l.set n v).getD m d = l.getD m d := by
  induction l generalizing m n with
  | nil => simp [List.set]
  | cons x xs ih =>
      cases n with
      | zero =>
          cases m with
          | zero => exact absurd rfl h
          | succ k => simp [List.set, List.getD]
      | succ n' =>
          cases m with
          | zero => simp [List.set, List.getD]
          | succ k =>
              have : k ≠ n' := fun hk => h (by rw [hk])
              simpa [List.set, List.getD] using ih this

theorem length_updateB {s : BoardState} {b : String} {v : List Char} :
    (updateB s b v).length = s.length := by
  simp [updateB]

theorem lookup_updateB_self {s : BoardState} {b : String} {v : List Char}
    (h : idxOf b boxes < s.length) : lookup (updateB s b v) b = v := by
  simpa [lookup, updateB] using getD_set_self (v := v) (d := ([] : List Char)) h

theorem lookup_updateB_ne {s : BoardState} {b c : String} {v : List Char}
    (h : idxOf c boxes ≠ idxOf b boxes) : lookup (updateB s b v) c = lookup s c := by
  simpa [lookup, updateB] using getD_set_ne (v := v) (d := ([] : List Char)) h

theorem lookup_updateB_subset {s : BoardState} {b : String} {v : List Char}
    (hv : v ⊆ lookup s b) (c : String) : lookup (updateB s b v) c ⊆ lookup s c := by
  by_cases h : idxOf c boxes = idxOf b boxes
  · by_cases hlen : idxOf b boxes < s.length
    · have h1 : lookup (updateB s b v) c = v := by
        simpa [lookup, updateB, h] using getD_set_self (v := v) (d := ([] : List Char)) hlen
      have h2 : lookup s c = lookup s b := by simp [lookup, h]
      rw [h1, h2]; exact hv
    · have : s.set (idxOf b boxes) v = s := by
        apply List.set_eq_of_length_le
        omega
      simp [lookup, updateB, this]
  · rw [lookup_updateB_ne h]
    exact fun x hx => hx

/-- A lookup that yields a non-empty string is in range. -/
theorem idx_lt_of_lookup_ne_nil {s : BoardState} {b : String} (h : lookup s b ≠ []) :
    idxOf b boxes < s.length := by
  by_contra hge
  have : s.getD (idxOf b boxes) [] = [] := by
    apply List.getD_eq_default
    omega
  exact h this

/-! ## Facts about `pyReplace` -/

theorem replaceFuel_subset (pat : List Char) :
    ∀ (fuel : Nat) (s : List Char), replaceFuel pat fuel s ⊆ s := by
  intro fuel
  induction fuel with
  | zero => intro s; simp [replaceFuel]
  | succ n ih =>
      intro s
      cases s with
      | nil => simp [replaceFuel]
      | cons a rest =>
          simp only [replaceFuel]
          by_cases h : (a :: rest).take pat.length = pat
          · simp only [h, if_pos rfl]
            exact (ih _).trans (List.drop_subset _ _)
          · simp only [if_neg h]
            intro x hx
            rcases List.mem_cons.mp hx with hx1 | hx1
            · exact hx1 ▸ List.mem_cons_self a rest
            · exact List.mem_cons_of_mem a (ih rest hx1)

theorem pyReplace_subset (s pat : List Char) : pyReplace s pat ⊆ s := by
  cases pat with
  | nil => simp [pyReplace]
  | cons p ps => exact replaceFuel_subset _ _ _

theorem replaceFuel_single {c : Char} :
    ∀ (fuel : Nat) (s : List Char), s.length ≤ fuel →
      replaceFuel [c] fuel s = s.filter (fun x => x ≠ c) := by
  intro fuel
  induction fuel with
  | zero =>
      intro s hs
      have : s = [] := List.length_eq_zero.mp (Nat.le_zero.mp hs)
      simp [this, replaceFuel]
  | succ n ih =>
      intro s hs
      cases s with
      | nil => simp [replaceFuel]
      | cons a rest =>
          simp only [replaceFuel, List.take, List.drop]
          by_cases h : a = c
          · have : [a] = [c] := by rw [h]
            simp only [List.take_succ_cons, List.take_zero, this, if_pos rfl, List.drop_succ_cons,
              List.drop_zero]
            rw [ih rest (by simpa using Nat.le_of_succ_le_succ hs)]
            simp [List.filter, h]
          · have hne : ¬([a] = [c]) := by simpa using h
            simp only [List.take_succ_cons, List.take_zero, if_neg hne, List.drop_succ_cons]
            rw [ih rest (by simpa using Nat.le_of_succ_le_succ hs)]
            simp [List.filter, h]

theorem pyReplace_single {s : List Char} {c : Char} :
    pyReplace s [c] = s.filter (fun x => x ≠ c) :=
  replaceFuel_single s.length s le_rfl

theorem pyReplace_nil (s : List Char) : pyReplace s [] = s := rfl

/-! ## Generic fold lemmas for board-state transformations -/

theorem foldl_lookup_subset {α : Type} (f : BoardState → α → BoardState)
    (hf : ∀ st a c, lookup (f st a) c ⊆ lookup st c) :
    ∀ (l : List α) (st : BoardState) (c : String), lookup (l.foldl f st) c ⊆ lookup st c := by
  intro l
  induction l with
  | nil => intro st c; simp
  | cons a as ih =>
      intro st c
      simp only [List.foldl_cons]
      exact (ih (f st a) c).trans (hf st a c)

theorem foldl_preserve {α : Type} (P : BoardState → Prop) (f : BoardState → α → BoardState)
    (hf : ∀ st a, P st → P (f st a)) :
    ∀ (l : List α) (st : BoardState), P st → P (l.foldl f st) := by
  intro l
  induction l with
  | nil => intro st h; simpa using h
  | cons a as ih => intro st h; exact ih (f st a) (hf st a h)


/-! ## Concrete boards used as witnesses and counterexamples -/

/-- The all-unknown puzzle: 81 placeholder characters, decoded. -/
def blankB : BoardState := (grid_values (List.replicate 81 '.')).getD []

/-- A fully solved, classically valid 9×9 grid. -/
def solvedStr : List Char :=
  ("483921657967345821251876493548132976729564138136798245372689514814253769695417382").toList

/-- `solvedStr` decoded. -/
def st0 : BoardState := (grid_values solvedStr).getD []

/-- `solvedStr` with cell A2 changed to `4`: the same value appears twice in
row A, a classically contradictory grid. -/
def dupStr : List Char :=
  ("443921657967345821251876493548132976729564138136798245372689514814253769695417382").toList

/-- `dupStr` decoded. -/
def st2 : BoardState := (grid_values dupStr).getD []

/-- A state with the naked pair `12` at A1 and A2 (row A), the singleton `2` at
A3, and the full alphabet everywhere else. -/
def s5 : BoardState :=
  updateB (updateB (updateB (List.replicate 81 valuesL) "A1" ['1', '2']) "A2" ['1', '2'])
    "A3" ['2']

theorem boxes_nodup : boxes.Nodup := by decide

theorem boxes_length : boxes.length = 81 := by decide

theorem idxOf_getD_nodup {l : List String} (h : l.Nodup) :
    ∀ i, i < l.length → ∀ d, idxOf (l.getD i d) l = i := by
  induction l with
  | nil => intro i hi; simp at hi
  | cons x xs ih =>
      intro i hi d
      cases i with
      | zero => simp [idxOf]
      | succ j =>
          have hj : j < xs.length := by simpa using hi
          have hmem : xs.getD j d ∈ xs := by
            rw [List.getD_eq_getElem _ _ hj]
            exact List.getElem_mem hj
          have hx : x ≠ xs.getD j d := by
            intro hcontra
            exact (List.nodup_cons.mp h).1 (hcontra ▸ hmem)
          have hxs : xs.Nodup := (List.nodup_cons.mp h).2
          simp only [List.getD_cons_succ, idxOf, if_neg hx]
          rw [ih hxs j hj d]

/-! ## C7: `eliminate` is monotone, and idempotent at a fixpoint -/

/-- **C7** (confirmed).  `eliminate` is monotone: every cell's candidate set
after `eliminate` is a subset of its candidate set before.  And for every
state that `eliminate` leaves unchanged, applying `eliminate` again produces
no further change. -/
theorem eliminate_monotone (dm : Bool) (s : BoardState) (c : String) :
    lookup (eliminate dm s) c ⊆ lookup s c ∧
    (eliminate dm s = s → eliminate dm (eliminate dm s) = eliminate dm s) := by
  constructor
  · unfold eliminate
    apply foldl_lookup_subset
    intro st box c'
    apply foldl_lookup_subset
    intro st2 peer c''
    exact lookup_updateB_subset (pyReplace_subset _ _) _
  · intro h
    rw [h]
    exact h

/-- Witness for C7 at a concrete state: the blank board is a fixpoint of
`eliminate`, so a second application changes nothing. -/
theorem eliminate_monotone_witness :
    eliminate false (eliminate false blankB) = eliminate false blankB :=
  (eliminate_monotone false blankB "A1").2 (by decide)

/-! ## C3: peer-set sizes -/

/-- **C3** (amended).  Every cell off the main diagonals has exactly 20 peers in
both modes.  With `diagonal_mode` on, a cell on exactly one main diagonal has
26 peers and the centre cell (on both diagonals) has 32 — not "at most 22" as
claimed. -/
theorem peers_card_amended (b : String) (hb : b ∈ boxes) :
    peersCard false b = 20 ∧
    peersCard true b =
      (if b ∈ diagonal_units.getD 0 [] ∧ b ∈ diagonal_units.getD 1 [] then 32
       else if b ∈ diagonal_units.getD 0 [] ∨ b ∈ diagonal_units.getD 1 [] then 26
       else 20) := by
  revert hb
  revert b
  decide

/-- Counterexample to C3 as stated: cell A1 lies on a main diagonal, yet in
diagonal mode it has 26 peers, more than the claimed bound of 22. -/
theorem peers_card_cex :
    "A1" ∈ diagonal_units.getD 0 [] ∧ peersCard true "A1" = 26 ∧
      ¬ peersCard true "A1" ≤ 22 := by decide

/-- Witness for C3's amended statement at the concrete cell A2 (off both
diagonals). -/
theorem peers_card_amended_witness :
    peersCard false "A2" = 20 ∧
    peersCard true "A2" =
      (if "A2" ∈ diagonal_units.getD 0 [] ∧ "A2" ∈ diagonal_units.getD 1 [] then 32
       else if "A2" ∈ diagonal_units.getD 0 [] ∨ "A2" ∈ diagonal_units.getD 1 [] then 26
       else 20) :=
  peers_card_amended "A2" (by decide)

/-! ## C9: decoding and its format error -/

/-- **C9** (confirmed).  `grid_values` fails exactly when the input length is
not 81; on a length-81 string it maps each cell `boxes[i]` to the full
alphabet for `'.'` and to the singleton of the given character otherwise. -/
theorem grid_values_spec (g : List Char) :
    (grid_values g = none ↔ g.length ≠ 81) ∧
    (∀ st, grid_values g = some st → ∀ i, i < 81 →
      lookup st (boxes.getD i "") =
        (if g.getD i ' ' = '.' then valuesL else [g.getD i ' '])) := by
  have hnum : num_boxes = 81 := by decide
  constructor
  · unfold grid_values
    rw [hnum]
    by_cases hl : g.length = 81
    · simp [hl]
    · simp [hl]
  · intro st hst i hi
    unfold grid_values at hst
    rw [hnum] at hst
    by_cases hl : g.length = 81
    · rw [if_pos hl] at hst
      have hst' : st = g.map fun ch => if ch = '.' then valuesL else [ch] :=
        (Option.some.injEq _ _ ▸ hst).symm
      have hidx : idxOf (boxes.getD i "") boxes = i :=
        idxOf_getD_nodup boxes_nodup i (by rw [boxes_length]; exact hi) ""
      have hil : i < g.length := by omega
      have hstlen : i < st.length := by
        rw [hst', List.length_map]; exact hil
      rw [lookup, hidx, hst', List.getD_eq_getElem _ _ (by simpa using hil),
        List.getElem_map, List.getD_eq_getElem _ _ hil]
    · rw [if_neg hl] at hst
      cases hst

/-- Witness for C9: the empty string is rejected with a format error. -/
theorem grid_values_spec_witness : grid_values [] = none :=
  (grid_values_spec []).1.mpr (by decide)


/-! ## C10: the strengthening reductions never empty a cell -/

/-- A character outside `vs` survives the value-removal loop of
`_remove_values_in_boxes`. -/
theorem removeLoop_mem {n : Char} :
    ∀ (vs ns : List Char), n ∉ vs → n ∈ ns → n ∈ removeLoop vs ns := by
  intro vs
  induction vs with
  | nil => intro ns _ hn; simpa [removeLoop] using hn
  | cons v vs' ih =>
      intro ns hnv hn
      have hne : n ≠ v := fun h => hnv (h ▸ List.mem_cons_self v vs')
      have hnv' : n ∉ vs' := fun h => hnv (List.mem_cons_of_mem v h)
      rw [removeLoop, List.foldl_cons]
      apply ih _ hnv'
      by_cases hlen : 1 < ns.length
      · rw [if_pos hlen, pyReplace_single]
        exact List.mem_filter.mpr ⟨hn, by simpa using hne⟩
      · rwa [if_neg hlen]

/-- One step of `_remove_values_in_boxes` keeps every cell's candidate set
non-empty. -/
theorem rvbStep_nonempty (values : List Char) (st : BoardState) (box : String)
    (h : ∀ c ∈ boxes, lookup st c ≠ []) :
    ∀ c ∈ boxes, lookup (rvbStep values st box) c ≠ [] := by
  intro c hc
  rw [rvbStep]
  by_cases hall : (lookup st box).all (fun ch => ch ∈ values) = true
  · rw [if_neg (not_not_intro hall)]
    exact h c hc
  · rw [if_pos hall]
    by_cases hchanged : lookup st box ≠ removeLoop values (lookup st box)
    · rw [if_pos hchanged]
      obtain ⟨n, hn, hnv⟩ : ∃ n ∈ lookup st box, n ∉ values := by
        rw [List.all_eq_true] at hall
        push_neg at hall
        obtain ⟨n, hn, hnv⟩ := hall
        exact ⟨n, hn, by simpa using hnv⟩
      have hsurv : n ∈ removeLoop values (lookup st box) := removeLoop_mem values _ hnv hn
      by_cases hidx : idxOf c boxes = idxOf box boxes
      · have hlt : idxOf box boxes < st.length := by
          have hbox : lookup st box ≠ [] := fun hnil => by simp [hnil] at hn
          exact idx_lt_of_lookup_ne_nil hbox
        have : lookup (updateB st box (removeLoop values (lookup st box))) c =
            removeLoop values (lookup st box) := by
          simp only [lookup, updateB, hidx]
          exact getD_set_self hlt
        rw [this]
        exact fun hnil => by simp [hnil] at hsurv
      · rw [lookup_updateB_ne hidx]
        exact h c hc
    · rw [if_neg hchanged]
      exact h c hc

/-- `_remove_values_in_boxes` keeps every cell's candidate set non-empty. -/
theorem rvb_nonempty (values : List Char) (bxs : List String) (st : BoardState)
    (h : ∀ c ∈ boxes, lookup st c ≠ []) :
    ∀ c ∈ boxes, lookup (remove_values_in_boxes st values bxs) c ≠ [] := by
  rw [remove_values_in_boxes]
  exact foldl_preserve (fun st => ∀ c ∈ boxes, lookup st c ≠ []) (rvbStep values)
    (fun st a hP => rvbStep_nonempty values st a hP) bxs st h

/-- **C10** (confirmed).  On a state in which every cell's candidate set is
non-empty, `naked_twins` and `naked_multi` (for any subset size) leave every
cell's candidate set non-empty: the shared helper skips cells whose candidates
are a subset of the removed values, and any other cell keeps a candidate
outside the removed values. -/
theorem strengthening_nonempty (dm : Bool) (s : BoardState) (size : Nat)
    (h : ∀ b ∈ boxes, lookup s b ≠ []) :
    (∀ b ∈ boxes, lookup (naked_twins dm s) b ≠ []) ∧
    (∀ b ∈ boxes, lookup (naked_multi dm s size) b ≠ []) := by
  have hnt : ∀ (st : BoardState) (box : String),
      (∀ c ∈ boxes, lookup st c ≠ []) → ∀ c ∈ boxes, lookup (ntBoxStep dm st box) c ≠ [] := by
    intro st box hP
    rw [ntBoxStep]
    apply foldl_preserve (fun st => ∀ c ∈ boxes, lookup st c ≠ []) _ _ _ _ hP
    intro st2 unit hP2
    rw [ntUnitStep]
    by_cases htw : (unit.filter fun b => lookup st2 b = lookup st box).length = 2
    · simp only [htw, if_pos rfl]
      exact rvb_nonempty _ _ _ hP2
    · simp only [if_neg htw]
      exact hP2
  have hnm : ∀ (st : BoardState) (leader : String),
      (∀ c ∈ boxes, lookup st c ≠ []) →
      ∀ c ∈ boxes, lookup (nmBoxStep dm size st leader) c ≠ [] := by
    intro st leader hP
    rw [nmBoxStep]
    apply foldl_preserve (fun st => ∀ c ∈ boxes, lookup st c ≠ []) _ _ _ _ hP
    intro st2 unit hP2
    rw [nmUnitStep]
    by_cases hsub : ((((unit.filter fun b => b ≠ leader).map
        fun b => (lookup st2 b).dedup).filter
          fun sub => 1 < sub.length ∧ sub ⊆ (lookup st leader).dedup).length : Int) =
        (size : Int) - 1
    · simp only [hsub, if_pos rfl]
      exact rvb_nonempty _ _ _ hP2
    · simp only [if_neg hsub]
      exact hP2
  constructor
  · rw [naked_twins]
    exact foldl_preserve (fun st => ∀ c ∈ boxes, lookup st c ≠ []) (ntBoxStep dm) hnt _ s h
  · rw [naked_multi]
    exact foldl_preserve (fun st => ∀ c ∈ boxes, lookup st c ≠ []) (nmBoxStep dm size) hnm _ s h

/-- Witness for C10 at the concrete state `s5` (every cell non-empty). -/
theorem strengthening_nonempty_witness :
    (∀ b ∈ boxes, lookup (naked_twins false s5) b ≠ []) ∧
    (∀ b ∈ boxes, lookup (naked_multi false s5 2) b ≠ []) :=
  strengthening_nonempty false s5 2 (by decide)

/-! ## Shallow evaluation of concrete reductions

Chained fold states are evaluated one loop step at a time (through explicit
intermediate states and `foldl_fixed`) so that every `decide` call below stays
within the kernel's recursion limits. -/

theorem foldl_fixed {α β : Type} (f : β → α → β) (x : β) :
    ∀ (l : List α), (∀ a ∈ l, f x a = x) → l.foldl f x = x := by
  intro l
  induction l with
  | nil => intro _; rfl
  | cons a as ih =>
      intro h
      rw [List.foldl_cons, h a (List.mem_cons_self a as)]
      exact ih fun b hb => h b (List.mem_cons_of_mem a hb)

/-- A state with one solved cell (A1 = `5`), one empty cell (A2) and the full
alphabet everywhere else. -/
def s1c : BoardState := updateB (updateB blankB "A1" ['5']) "A2" []

/-- A sparse contradictory puzzle string: the value `5` in both A1 and A2 (the
same row), all other cells unknown. -/
def g3 : List Char := '5' :: '5' :: List.replicate 79 '.'

/-- `g3` decoded. -/
def st3 : BoardState := (grid_values g3).getD []

/-- The full alphabet minus the digit 5. -/
def minus5 : List Char := ['1', '2', '3', '4', '6', '7', '8', '9']

/-- The common result of running `eliminate` on `s1c` and on `st3`: A1 keeps
`5`, A2 is empty, the remaining peers of A1 lose the digit 5. -/
def eR : BoardState :=
  ([['5'], []] ++ List.replicate 7 minus5) ++
  (List.replicate 3 minus5 ++ List.replicate 6 valuesL) ++
  (List.replicate 3 minus5 ++ List.replicate 6 valuesL) ++
  (minus5 :: List.replicate 8 valuesL) ++
  (minus5 :: List.replicate 8 valuesL) ++
  (minus5 :: List.replicate 8 valuesL) ++
  (minus5 :: List.replicate 8 valuesL) ++
  (minus5 :: List.replicate 8 valuesL) ++
  (minus5 :: List.replicate 8 valuesL)

theorem eliminate_s1c : eliminate false s1c = eR := by
  have hsolved : (boxes.filter fun b => (lookup s1c b).length = 1) = ["A1"] := by decide
  have hstep : elimBoxStep false s1c "A1" = eR := by decide
  rw [eliminate, hsolved, List.foldl_cons, hstep, List.foldl_nil]

theorem eliminate_st3 : eliminate false st3 = eR := by
  have hsolved : (boxes.filter fun b => (lookup st3 b).length = 1) = ["A1", "A2"] := by decide
  have hstep1 : elimBoxStep false st3 "A1" = eR := by decide
  have hstep2 : elimBoxStep false eR "A2" = eR := by decide
  rw [eliminate, hsolved, List.foldl_cons, hstep1, List.foldl_cons, hstep2, List.foldl_nil]

theorem eliminate_eR : eliminate false eR = eR := by
  have hsolved : (boxes.filter fun b => (lookup eR b).length = 1) = ["A1"] := by decide
  have hstep : elimBoxStep false eR "A1" = eR := by decide
  rw [eliminate, hsolved, List.foldl_cons, hstep, List.foldl_nil]

theorem only_choice_eR : only_choice false eR = eR := by
  rw [only_choice]
  exact foldl_fixed _ _ _ (by decide)

theorem passOnce_s1c : passOnce false s1c = eR := by
  rw [passOnce, eliminate_s1c, only_choice_eR]

theorem passOnce_st3 : passOnce false st3 = eR := by
  rw [passOnce, eliminate_st3, only_choice_eR]

theorem passOnce_eR : passOnce false eR = eR := by
  rw [passOnce, eliminate_eR, only_choice_eR]

theorem eliminate_blank : eliminate false blankB = blankB := by
  have hsolved : (boxes.filter fun b => (lookup blankB b).length = 1) = [] := by decide
  rw [eliminate, hsolved, List.foldl_nil]

theorem only_choice_blank : only_choice false blankB = blankB := by
  rw [only_choice]
  exact foldl_fixed _ _ _ (by decide)

theorem passOnce_blank : passOnce false blankB = blankB := by
  rw [passOnce, eliminate_blank, only_choice_blank]

/-- Unfolding of one iteration of the `reduce_puzzle` loop. -/
theorem reduce_puzzle_unfold (dm : Bool) (f : Nat) (s : BoardState) :
    reduce_puzzle dm (f + 1) s =
      (if num_solved_boxes (passOnce dm s) = 0 then none
       else if num_solved_boxes s = num_solved_boxes (passOnce dm s) then some (passOnce dm s)
       else reduce_puzzle dm f (passOnce dm s)) := rfl

theorem num_solved_eR : num_solved_boxes eR = 1 := by decide

theorem reduce_puzzle_eR : ∀ f, reduce_puzzle false (f + 1) eR = some eR := by
  intro f
  rw [reduce_puzzle_unfold, passOnce_eR, num_solved_eR]
  norm_num

theorem reduce_puzzle_s1c : ∀ f, reduce_puzzle false (f + 1) s1c = some eR := by
  intro f
  have h1 : num_solved_boxes s1c = 1 := by decide
  rw [reduce_puzzle_unfold, passOnce_s1c, h1, num_solved_eR]
  norm_num

theorem reduce_puzzle_st3 : ∀ f, reduce_puzzle false (f + 2) st3 = some eR := by
  intro f
  have h1 : num_solved_boxes st3 = 2 := by decide
  rw [show f + 2 = (f + 1) + 1 from rfl, reduce_puzzle_unfold, passOnce_st3, h1, num_solved_eR]
  rw [if_neg (by norm_num), if_neg (by norm_num)]
  exact reduce_puzzle_eR f

theorem reduce_puzzle_blank : ∀ f, reduce_puzzle false (f + 1) blankB = none := by
  intro f
  have h0 : num_solved_boxes blankB = 0 := by decide
  rw [reduce_puzzle_unfold, passOnce_blank, h0, if_pos rfl]

/-! ## Candidate mass: a termination measure for the propagation loop -/

theorem replaceFuel_sublist (pat : List Char) :
    ∀ (fuel : Nat) (s : List Char), List.Sublist (replaceFuel pat fuel s) s := by
  intro fuel
  induction fuel with
  | zero => intro s; simp [replaceFuel]
  | succ n ih =>
      intro s
      cases s with
      | nil => simp [replaceFuel]
      | cons a rest =>
          simp only [replaceFuel]
          by_cases h : (a :: rest).take pat.length = pat
          · simp only [h, if_pos rfl]
            exact (ih _).trans (List.drop_sublist _ _)
          · simp only [if_neg h]
            exact List.Sublist.cons₂ a (ih rest)

theorem pyReplace_sublist (s pat : List Char) : List.Sublist (pyReplace s pat) s := by
  cases pat with
  | nil => simp [pyReplace]
  | cons p ps => exact replaceFuel_sublist _ _ _

theorem lookup_updateB_sublist {s : BoardState} {b : String} {v : List Char}
    (hv : List.Sublist v (lookup s b)) (c : String) :
    List.Sublist (lookup (updateB s b v) c) (lookup s c) := by
  by_cases h : idxOf c boxes = idxOf b boxes
  · by_cases hlen : idxOf b boxes < s.length
    · have h1 : lookup (updateB s b v) c = v := by
        simp only [lookup, updateB, h]
        exact getD_set_self hlen
      have h2 : lookup s c = lookup s b := by simp [lookup, h]
      rw [h1, h2]; exact hv
    · have : s.set (idxOf b boxes) v = s := by
        apply List.set_eq_of_length_le
        omega
      simp [lookup, updateB, this]
  · rw [lookup_updateB_ne h]

theorem foldl_lookup_sublist {α : Type} (f : BoardState → α → BoardState)
    (hf : ∀ st a c, List.Sublist (lookup (f st a) c) (lookup st c)) :
    ∀ (l : List α) (st : BoardState) (c : String),
      List.Sublist (lookup (l.foldl f st) c) (lookup st c) := by
  intro l
  induction l with
  | nil => intro st c; simp
  | cons a as ih =>
      intro st c
      simp only [List.foldl_cons]
      exact (ih (f st a) c).trans (hf st a c)

theorem eliminate_sublist (dm : Bool) (s : BoardState) (c : String) :
    List.Sublist (lookup (eliminate dm s) c) (lookup s c) := by
  unfold eliminate
  apply foldl_lookup_sublist
  intro st box c'
  apply foldl_lookup_sublist
  intro st2 peer c''
  exact lookup_updateB_sublist (pyReplace_sublist _ _) _

theorem ocDigitStep_sublist (unit : List String) (st2 : BoardState) (d : Char) (c : String) :
    List.Sublist (lookup (ocDigitStep unit st2 d) c) (lookup st2 c) := by
  rw [ocDigitStep]
  cases hfil : unit.filter (fun b => d ∈ lookup st2 b) with
  | nil => exact List.Sublist.refl _
  | cons b bs =>
      cases bs with
      | nil =>
          have hb : b ∈ unit.filter (fun b => d ∈ lookup st2 b) := by
            rw [hfil]; exact List.mem_cons_self b []
          have hd : d ∈ lookup st2 b := by
            have := (List.mem_filter.mp hb).2
            simpa using this
          exact lookup_updateB_sublist (List.singleton_sublist.mpr hd) _
      | cons b2 bs2 => exact List.Sublist.refl _

theorem only_choice_sublist (dm : Bool) (s : BoardState) (c : String) :
    List.Sublist (lookup (only_choice dm s) c) (lookup s c) := by
  unfold only_choice
  apply foldl_lookup_sublist
  intro st unit c'
  apply foldl_lookup_sublist
  intro st2 d c''
  exact ocDigitStep_sublist _ _ _ _

theorem passOnce_sublist (dm : Bool) (s : BoardState) (c : String) :
    List.Sublist (lookup (passOnce dm s) c) (lookup s c) :=
  (only_choice_sublist dm (eliminate dm s) c).trans (eliminate_sublist dm s c)

/-- Total number of remaining candidates on the board. -/
def massOf (s : BoardState) : Nat := (boxes.map fun b => (lookup s b).length).sum

theorem massOf_passOnce_lt (dm : Bool) (s : BoardState)
    (h : num_solved_boxes s ≠ num_solved_boxes (passOnce dm s)) :
    massOf (passOnce dm s) < massOf s := by
  have hpoint : ∀ b, List.Sublist (lookup (passOnce dm s) b) (lookup s b) :=
    passOnce_sublist dm s
  have hne : ∃ b ∈ boxes, lookup (passOnce dm s) b ≠ lookup s b := by
    by_contra hall
    push_neg at hall
    apply h
    unfold num_solved_boxes
    congr 1
    apply List.filter_congr
    intro b hb
    rw [hall b hb]
  obtain ⟨b0, hb0, hb0ne⟩ := hne
  apply List.sum_lt_sum
  · intro b hb
    exact (hpoint b).length_le
  · refine ⟨b0, hb0, ?_⟩
    have hle := (hpoint b0).length_le
    have : (lookup (passOnce dm s) b0).length ≠ (lookup s b0).length := by
      intro hlen
      exact hb0ne ((hpoint b0).eq_of_length hlen)
    omega

/-! ## C1: how `reduce_puzzle` reports failure -/

/-- **C1** (amended).  `reduce_puzzle` decides failure by the solved-cell
count, not by candidate-set emptiness: with sufficient fuel it returns `None`
exactly when some `eliminate`/`only_choice` pass ends with zero solved cells,
and otherwise it returns the result of the first pass whose solved-cell count
equals the count before the pass — a state that may well contain empty
candidate sets. -/
theorem reduce_puzzle_failure_characterization (dm : Bool) :
    ∀ (fuel : Nat) (s : BoardState), massOf s < fuel →
      (reduce_puzzle dm fuel s = none →
        ∃ k, k < fuel ∧ num_solved_boxes (passIter dm (k + 1) s) = 0) ∧
      (∀ r, reduce_puzzle dm fuel s = some r →
        0 < num_solved_boxes r ∧
        ∃ k, k < fuel ∧ r = passIter dm (k + 1) s ∧
          num_solved_boxes (passIter dm k s) = num_solved_boxes r) := by
  intro fuel
  induction fuel with
  | zero => intro s h; omega
  | succ n ih =>
      intro s hmass
      constructor
      · intro hnone
        rw [reduce_puzzle_unfold] at hnone
        by_cases h0 : num_solved_boxes (passOnce dm s) = 0
        · exact ⟨0, by omega, by simpa [passIter] using h0⟩
        · rw [if_neg h0] at hnone
          by_cases hstall : num_solved_boxes s = num_solved_boxes (passOnce dm s)
          · rw [if_pos hstall] at hnone; cases hnone
          · rw [if_neg hstall] at hnone
            have hlt : massOf (passOnce dm s) < massOf s := massOf_passOnce_lt dm s hstall
            obtain ⟨k, hk, hz⟩ := (ih (passOnce dm s) (by omega)).1 hnone
            exact ⟨k + 1, by omega, by simpa [passIter] using hz⟩
      · intro r hsome
        rw [reduce_puzzle_unfold] at hsome
        by_cases h0 : num_solved_boxes (passOnce dm s) = 0
        · rw [if_pos h0] at hsome; cases hsome
        · rw [if_neg h0] at hsome
          by_cases hstall : num_solved_boxes s = num_solved_boxes (passOnce dm s)
          · rw [if_pos hstall] at hsome
            have hr : r = passOnce dm s := (Option.some.injEq _ _).mp hsome.symm
            subst hr
            exact ⟨Nat.pos_of_ne_zero h0, 0, by omega, rfl, hstall⟩
          · rw [if_neg hstall] at hsome
            have hlt : massOf (passOnce dm s) < massOf s := massOf_passOnce_lt dm s hstall
            obtain ⟨hpos, k, hk, hr, hnum⟩ := ((ih (passOnce dm s) (by omega)).2 r hsome : _)
            exact ⟨hpos, k + 1, by omega, by simpa [passIter] using hr,
              by simpa [passIter] using hnum⟩

/-- Counterexample to C1 as stated.  On the state `s1c` (cell A1 solved with
`5`, cell A2 empty) a pass leaves A2's candidate set empty, yet `reduce_puzzle`
returns the partially reduced state `eR` rather than failing; and on the blank
board `reduce_puzzle` fails although no cell's candidate set ever becomes
empty (the blank board is a fixpoint of the pass and has no empty cells). -/
theorem reduce_puzzle_emptiness_cex :
    lookup eR "A2" = [] ∧ reduce_puzzle false 10 s1c = some eR ∧
    reduce_puzzle false 10 blankB = none ∧ (∀ b ∈ boxes, lookup blankB b ≠ []) ∧
    passOnce false blankB = blankB :=
  ⟨by decide, reduce_puzzle_s1c 9, reduce_puzzle_blank 9, by decide, passOnce_blank⟩

/-- Witness for C1's amended characterization at the blank board: the failure
is explained by a pass with zero solved cells. -/
theorem reduce_puzzle_failure_characterization_witness :
    ∃ k, k < 730 ∧ num_solved_boxes (passIter false (k + 1) blankB) = 0 :=
  (reduce_puzzle_failure_characterization false 730 blankB (by decide)).1
    (reduce_puzzle_blank 729)

/-! ## A fully solved valid grid is a fixpoint of the propagation passes

These symbolic lemmas avoid evaluating the full `eliminate`/`only_choice`
folds on concrete solved grids: on a complete assignment every `only_choice`
write re-writes the value a cell already has, and with a validated grid every
`eliminate` removal removes a digit that is not there. -/

theorem set_getD_self_eq {α : Type} :
    ∀ (l : List α) (i : Nat) (d : α), i < l.length → l.set i (l.getD i d) = l := by
  intro l
  induction l with
  | nil => intro i d h; simp at h
  | cons x xs ih =>
      intro i d h
      cases i with
      | zero => simp [List.set, List.getD]
      | succ j =>
          have hj : j < xs.length := by simpa using h
          simp only [List.set, List.getD_cons_succ]
          rw [ih j d hj]

theorem updateB_self_eq {st : BoardState} {b : String} (h : idxOf b boxes < st.length) :
    updateB st b (lookup st b) = st :=
  set_getD_self_eq st (idxOf b boxes) [] h

theorem all_units_subset_boxes : ∀ (dm : Bool), ∀ u ∈ all_units dm, ∀ x ∈ u, x ∈ boxes := by
  intro dm
  cases dm <;> decide

theorem mem_peersL_decomp {dm : Bool} {b p : String} (hp : p ∈ peersL dm b) :
    (∃ u ∈ all_units dm, b ∈ u ∧ p ∈ u) ∧ p ≠ b := by
  rw [peersL] at hp
  have h1 := List.mem_filter.mp hp
  have hne : p ≠ b := by simpa using h1.2
  have h2 : p ∈ (unitsOf dm b).flatten := List.mem_dedup.mp h1.1
  obtain ⟨u, hu, hpu⟩ := List.mem_flatten.mp h2
  have h3 := List.mem_filter.mp hu
  exact ⟨⟨u, h3.1, by simpa using h3.2, hpu⟩, hne⟩

/-- Forward direction of the `validate` characterization: an accepted state
has every unit a permutation of the alphabet singletons. -/
theorem validate_units_perm {dm : Bool} {s : BoardState} (h : validate dm s = true) :
    ∀ u ∈ all_units dm, List.Perm (u.map fun b => lookup s b) (valuesL.map fun c => [c]) := by
  have hulen : ∀ u ∈ all_units dm, u.length = 9 := by cases dm <;> decide
  have hcnodup : (valuesL.map fun c => [c]).Nodup := by decide
  have hclen : (valuesL.map fun c => [c]).length = 9 := by decide
  rw [validate, List.all_eq_true] at h
  intro u hu
  have h1 := h u hu
  rw [Bool.and_eq_true, List.all_eq_true, List.all_eq_true] at h1
  obtain ⟨_, ha2⟩ := h1
  have hsub : (valuesL.map fun c => [c]) ⊆ (u.map fun b => lookup s b) := by
    intro v hv
    have hv2 := ha2 v hv
    have : v ∈ ((u.map fun b => lookup s b).dedup) := by simpa using hv2
    exact List.mem_dedup.mp this
  have hsubperm := List.Nodup.subperm hcnodup hsub
  have hperm := List.Subperm.perm_of_length_le hsubperm
    (by rw [List.length_map, hulen u hu, hclen])
  exact hperm.symm

theorem lookup_singleton {s : BoardState} {b : String} (hb : b ∈ boxes)
    (hsolved : ∀ b ∈ boxes, (lookup s b).length = 1) : ∃ x, lookup s b = [x] :=
  List.length_eq_one.mp (hsolved b hb)

theorem lookup_ne_of_peer {dm : Bool} {s : BoardState} {b p : String}
    (hval : validate dm s = true) (hp : p ∈ peersL dm b) :
    lookup s p ≠ lookup s b := by
  obtain ⟨⟨u, hu, hbu, hpu⟩, hne⟩ := mem_peersL_decomp hp
  have hperm := validate_units_perm hval u hu
  have hnodup : (u.map fun b => lookup s b).Nodup := hperm.nodup_iff.mpr (by decide)
  intro hcontra
  exact hne (List.inj_on_of_nodup_map hnodup hpu hbu hcontra)

theorem eliminate_fixed (dm : Bool) (st : BoardState) (hlen : st.length = 81)
    (hsolved : ∀ b ∈ boxes, (lookup st b).length = 1)
    (hval : validate dm st = true) : eliminate dm st = st := by
  have hfil : (boxes.filter fun b => (lookup st b).length = 1) = boxes :=
    List.filter_eq_self.mpr fun b hb => decide_eq_true (hsolved b hb)
  rw [eliminate, hfil]
  apply foldl_fixed
  intro b hb
  rw [elimBoxStep]
  apply foldl_fixed
  intro p hp
  rw [elimPeerStep]
  obtain ⟨⟨u, hu, hbu, hpu⟩, hne⟩ := mem_peersL_decomp hp
  have hpb : p ∈ boxes := all_units_subset_boxes dm u hu p hpu
  obtain ⟨x, hx⟩ := lookup_singleton hb hsolved
  obtain ⟨y, hy⟩ := lookup_singleton hpb hsolved
  have hxy : y ≠ x := by
    intro hcontra
    apply lookup_ne_of_peer hval hp
    rw [hx, hy, hcontra]
  have hrep : pyReplace (lookup st p) (lookup st b) = lookup st p := by
    rw [hx, hy, pyReplace_single]
    simp [hxy]
  rw [hrep]
  exact updateB_self_eq (by rw [hlen, ← boxes_length]; exact idxOf_lt_length hpb)

theorem only_choice_fixed (dm : Bool) (st : BoardState) (hlen : st.length = 81)
    (hsolved : ∀ b ∈ boxes, (lookup st b).length = 1) : only_choice dm st = st := by
  rw [only_choice]
  apply foldl_fixed
  intro u hu
  rw [ocUnitStep]
  apply foldl_fixed
  intro d _
  rw [ocDigitStep]
  cases hfil : u.filter (fun b => d ∈ lookup st b) with
  | nil => rfl
  | cons b bs =>
      cases bs with
      | nil =>
          have hbf : b ∈ u.filter (fun b => d ∈ lookup st b) := by
            rw [hfil]; exact List.mem_cons_self b []
          have hbu : b ∈ u := (List.mem_filter.mp hbf).1
          have hbd : d ∈ lookup st b := by simpa using (List.mem_filter.mp hbf).2
          have hbb : b ∈ boxes := all_units_subset_boxes dm u hu b hbu
          obtain ⟨x, hx⟩ := lookup_singleton hbb hsolved
          have hxd : lookup st b = [d] := by
            rw [hx] at hbd ⊢
            have : d = x := by simpa using hbd
            rw [this]
          show updateB st b [d] = st
          rw [← hxd]
          exact updateB_self_eq (by rw [hlen, ← boxes_length]; exact idxOf_lt_length hbb)
      | cons b2 bs2 => rfl

/-! ## Soundness of `search` -/

theorem num_solved_complete {s : BoardState} (h : num_solved_boxes s = num_boxes) :
    ∀ b ∈ boxes, (lookup s b).length = 1 := by
  unfold num_solved_boxes at h
  have hlen : (boxes.filter fun b => (lookup s b).length = 1).length = boxes.length := by
    rw [h]; decide
  have hfil : boxes.filter (fun b => (lookup s b).length = 1) = boxes :=
    List.Sublist.eq_of_length (List.filter_sublist _) hlen
  intro b hb
  have hmem : b ∈ boxes.filter (fun b => (lookup s b).length = 1) := by
    rw [hfil]; exact hb
  simpa using (List.mem_filter.mp hmem).2

theorem foldl_first_some {α : Type} (g : α → Option BoardState) :
    ∀ (l : List α) (acc : Option BoardState) (r : BoardState),
      l.foldl (fun acc c => match acc with | some r' => some r' | none => g c) acc = some r →
      acc = some r ∨ ∃ c ∈ l, g c = some r := by
  intro l
  induction l with
  | nil => intro acc r h; exact Or.inl h
  | cons c cs ih =>
      intro acc r h
      rw [List.foldl_cons] at h
      rcases ih _ r h with hstep | ⟨c', hc', hg⟩
      · cases acc with
        | some r' => exact Or.inl hstep
        | none => exact Or.inr ⟨c, List.mem_cons_self c cs, hstep⟩
      · exact Or.inr ⟨c', List.mem_cons_of_mem c hc', hg⟩

/-- Unfolding of one level of `search`. -/
theorem search_unfold (dm : Bool) (f : Nat) (s : BoardState) :
    search dm (f + 1) s =
      (match reduce_puzzle dm (f + 1) s with
       | none => none
       | some reduced =>
           if num_solved_boxes reduced = num_boxes then
             if validate dm reduced then some reduced else none
           else
             match sorted_box_possibilities reduced with
             | [] => none
             | smallest :: _ =>
                 (lookup reduced smallest).foldl
                   (fun acc c =>
                     match acc with
                     | some r => some r
                     | none => search dm f (updateB reduced smallest [c]))
                   none) := rfl

/-- Any successful result of `search` is a complete assignment that passes
`validate`. -/
theorem search_sound (dm : Bool) :
    ∀ (fuel : Nat) (s r : BoardState), search dm fuel s = some r →
      (∀ b ∈ boxes, (lookup r b).length = 1) ∧ validate dm r = true := by
  intro fuel
  induction fuel with
  | zero =>
      intro s r h
      exact Option.noConfusion h
  | succ n ih =>
      intro s r h
      rw [search_unfold] at h
      cases hred : reduce_puzzle dm (n + 1) s with
      | none => rw [hred] at h; exact Option.noConfusion h
      | some reduced =>
          rw [hred] at h
          have h : (if num_solved_boxes reduced = num_boxes then
              (if validate dm reduced = true then some reduced else none)
            else
              match sorted_box_possibilities reduced with
              | [] => none
              | smallest :: _ =>
                  (lookup reduced smallest).foldl
                    (fun acc c =>
                      match acc with
                      | some r => some r
                      | none => search dm n (updateB reduced smallest [c]))
                    none) = some r := h
          by_cases hcomp : num_solved_boxes reduced = num_boxes
          · rw [if_pos hcomp] at h
            by_cases hval : validate dm reduced = true
            · rw [if_pos hval] at h
              have hr : reduced = r := Option.some.inj h
              subst hr
              exact ⟨num_solved_complete hcomp, hval⟩
            · rw [if_neg hval] at h
              exact Option.noConfusion h
          · rw [if_neg hcomp] at h
            cases hposs : sorted_box_possibilities reduced with
            | nil => rw [hposs] at h; exact Option.noConfusion h
            | cons smallest rest =>
                rw [hposs] at h
                rcases foldl_first_some _ _ _ _ h with hacc | ⟨c, _, hg⟩
                · exact Option.noConfusion hacc
                · exact ih _ r hg

/-! ## C4: `search` never returns a partial grid as success -/

/-- **C4** (confirmed).  Whenever `search` returns a non-failure result, that
result is a complete assignment (all 81 cells singletons) that passes
`validate`; `search` never returns a partially solved grid as a success
value. -/
theorem search_success_sound (dm : Bool) (fuel : Nat) (s r : BoardState)
    (h : search dm fuel s = some r) :
    (∀ b ∈ boxes, (lookup r b).length = 1) ∧ validate dm r = true :=
  search_sound dm fuel s r h

theorem eliminate_st0 : eliminate false st0 = st0 :=
  eliminate_fixed false st0 (by decide) (by decide) (by decide)

theorem only_choice_st0 : only_choice false st0 = st0 :=
  only_choice_fixed false st0 (by decide) (by decide)

theorem reduce_puzzle_st0 : ∀ f, reduce_puzzle false (f + 1) st0 = some st0 := by
  intro f
  have h81 : num_solved_boxes st0 = 81 := by decide
  rw [reduce_puzzle_unfold, passOnce, eliminate_st0, only_choice_st0, h81]
  norm_num

theorem search_st0 : search false 1 st0 = some st0 := by
  rw [show (1 : Nat) = 0 + 1 from rfl, search_unfold, reduce_puzzle_st0 0]
  have hcomp : num_solved_boxes st0 = num_boxes := by decide
  have hval : validate false st0 = true := by decide
  simp [hcomp, hval]

/-- Witness for C4: on the already-solved valid grid `st0`, `search` succeeds,
and the result is complete and validated. -/
theorem search_success_sound_witness :
    search false 1 st0 = some st0 ∧
      (∀ b ∈ boxes, (lookup st0 b).length = 1) ∧ validate false st0 = true :=
  ⟨search_st0, search_success_sound false 1 st0 st0 search_st0⟩

/-! ## C2: rejection of contradictory inputs -/

/-- Counterexample to C2 as stated.  The decoded grid `g3` places the value `5`
in both A1 and A2 of row A (classically contradictory), yet the top-level
`reduce_puzzle` call does not return failure: it returns the partially reduced
state `eR`. -/
theorem contradictory_reduce_cex :
    grid_values g3 = some st3 ∧ lookup st3 "A1" = ['5'] ∧ lookup st3 "A2" = ['5'] ∧
      reduce_puzzle false 10 st3 ≠ none := by
  refine ⟨by decide, by decide, by decide, ?_⟩
  rw [show (10 : Nat) = 8 + 2 from rfl, reduce_puzzle_st3 8]
  exact Option.noConfusion

/-- **C2** (amended).  A classically contradictory decoded grid need not be
rejected at the first `reduce_puzzle` call: on `g3` the initial reduction
returns a partially reduced state (`reduce_puzzle` only fails when a pass
leaves zero solved cells).  The guarantee that survives is that the pipeline
never produces a false "solved" result: every non-failure result of `search`,
on any input, is a complete assignment that passes `validate`. -/
theorem contradictory_grid_amended :
    (grid_values g3 = some st3 ∧ lookup st3 "A1" = ['5'] ∧ lookup st3 "A2" = ['5'] ∧
      reduce_puzzle false 10 st3 = some eR) ∧
    (∀ (fuel : Nat) (s r : BoardState), search false fuel s = some r →
      (∀ b ∈ boxes, (lookup r b).length = 1) ∧ validate false r = true) := by
  refine ⟨⟨by decide, by decide, by decide, ?_⟩, fun fuel s r h => search_sound false fuel s r h⟩
  rw [show (10 : Nat) = 8 + 2 from rfl]
  exact reduce_puzzle_st3 8

/-- Witness for C2's amended statement: the contradictory grid survives
reduction, and the no-false-solved guarantee applied to the concrete solved
board `st0`. -/
theorem contradictory_grid_amended_witness :
    reduce_puzzle false 10 st3 = some eR ∧
      (∀ b ∈ boxes, (lookup st0 b).length = 1) ∧ validate false st0 = true :=
  ⟨contradictory_grid_amended.1.2.2.2,
    contradictory_grid_amended.2 1 st0 st0 search_st0⟩

/-! ## C8: `validate` accepts exactly the unit permutations -/

/-- **C8** (confirmed).  On a fully assigned state, `validate` returns `true`
exactly when the values of every unit form a permutation of the full alphabet
(as singleton strings): no repeats, no omissions.  (`validate` is a pure
function of the state, so it cannot mutate it.) -/
theorem validate_iff_perm (dm : Bool) (s : BoardState)
    (_hsolved : ∀ b ∈ boxes, (lookup s b).length = 1) :
    validate dm s = true ↔
      ∀ u ∈ all_units dm, List.Perm (u.map fun b => lookup s b) (valuesL.map fun c => [c]) := by
  constructor
  · exact fun hall => validate_units_perm hall
  · intro hperm
    rw [validate, List.all_eq_true]
    intro u hu
    have hp := hperm u hu
    rw [Bool.and_eq_true, List.all_eq_true, List.all_eq_true]
    constructor
    · intro v hv
      have hvm : v ∈ (u.map fun b => lookup s b) := by
        refine List.mem_dedup.mp ?_
        simpa using hv
      have : v ∈ (valuesL.map fun c => [c]) := hp.mem_iff.mp hvm
      simpa using this
    · intro v hv
      have hvm : v ∈ (u.map fun b => lookup s b) := hp.mem_iff.mpr (by simpa using hv)
      have : v ∈ ((u.map fun b => lookup s b).dedup) := List.mem_dedup.mpr hvm
      simpa using this

/-- Witness for C8 at the concrete solved board `st0`. -/
theorem validate_iff_perm_witness :
    validate false st0 = true ↔
      ∀ u ∈ all_units false, List.Perm (u.map fun b => lookup st0 b) (valuesL.map fun c => [c]) :=
  validate_iff_perm false st0 (by decide)

/-! ## C6: decoding then encoding a fully specified puzzle -/

/-- The delimiter-splitting of the spec's "delimiter-separated output": split a
character list at every comma. -/
def splitTokens : List Char → List (List Char)
  | [] => [[]]
  | c :: rest =>
      if c = ',' then [] :: splitTokens rest
      else
        match splitTokens rest with
        | t :: ts => (c :: t) :: ts
        | [] => [[c]]

/-- Comma-join of a token list (what `board_to_str` produces after the
trailing separator is dropped). -/
def joinC : List (List Char) → List Char
  | [] => []
  | [t] => t
  | t :: ts => t ++ ',' :: joinC ts

theorem splitTokens_no_comma : ∀ (t : List Char), ',' ∉ t → splitTokens t = [t] := by
  intro t
  induction t with
  | nil => intro _; rfl
  | cons c rest ih =>
      intro h
      have hc : ¬ (c = ',') := fun hc => h (hc ▸ List.mem_cons_self c rest)
      have hrest : ',' ∉ rest := fun hr => h (List.mem_cons_of_mem c hr)
      rw [splitTokens, if_neg hc, ih hrest]

theorem splitTokens_append : ∀ (t l : List Char), ',' ∉ t →
    splitTokens (t ++ ',' :: l) = t :: splitTokens l := by
  intro t
  induction t with
  | nil => intro l _; simp [splitTokens]
  | cons c rest ih =>
      intro l h
      have hc : ¬ (c = ',') := fun hc => h (hc ▸ List.mem_cons_self c rest)
      have hrest : ',' ∉ rest := fun hr => h (List.mem_cons_of_mem c hr)
      rw [List.cons_append, splitTokens, if_neg hc, ih l hrest]

theorem splitTokens_joinC : ∀ (ts : List (List Char)), ts ≠ [] →
    (∀ t ∈ ts, ',' ∉ t) → splitTokens (joinC ts) = ts := by
  intro ts
  induction ts with
  | nil => intro h _; exact absurd rfl h
  | cons t ts' ih =>
      intro _ hcomma
      cases ts' with
      | nil => exact splitTokens_no_comma t (hcomma t (List.mem_cons_self t []))
      | cons t2 ts2 =>
          rw [show joinC (t :: t2 :: ts2) = t ++ ',' :: joinC (t2 :: ts2) from rfl,
            splitTokens_append t _ (hcomma t (List.mem_cons_self t _)),
            ih (by simp) fun x hx => hcomma x (List.mem_cons_of_mem t hx)]

theorem flatten_comma : ∀ (ts : List (List Char)), ts ≠ [] →
    (ts.map fun t => t ++ [',']).flatten = joinC ts ++ [','] := by
  intro ts
  induction ts with
  | nil => intro h; exact absurd rfl h
  | cons t ts' ih =>
      intro _
      cases ts' with
      | nil => simp [joinC]
      | cons t2 ts2 =>
          rw [List.map_cons, List.flatten_cons, ih (by simp),
            show joinC (t :: t2 :: ts2) = t ++ ',' :: joinC (t2 :: ts2) from rfl]
          simp

theorem foldl_append_flatten (s : BoardState) :
    ∀ (l : List String) (acc : List Char),
      l.foldl (fun acc b => acc ++ lookup s b ++ [',']) acc =
        acc ++ (l.map fun b => lookup s b ++ [',']).flatten := by
  intro l
  induction l with
  | nil => intro acc; simp
  | cons b bs ih =>
      intro acc
      rw [List.foldl_cons, ih, List.map_cons, List.flatten_cons]
      simp

/-- For a state of the right length, reading every cell back in canonical
order recovers the state. -/
theorem boxes_map_lookup (st : BoardState) (hlen : st.length = 81) :
    boxes.map (fun b => lookup st b) = st := by
  apply List.ext_getElem
  · rw [List.length_map, boxes_length, hlen]
  · intro i hi1 hi2
    rw [List.getElem_map]
    have hib : i < boxes.length := by simpa using hi1
    have hidx : idxOf (boxes.getD i "") boxes = i := idxOf_getD_nodup boxes_nodup i hib ""
    have hbx : boxes.getD i "" = boxes[i] := List.getD_eq_getElem _ _ hib
    rw [← hbx, lookup, hidx, List.getD_eq_getElem _ _ (by omega : i < st.length)]

theorem map_lookup_comma (st : BoardState) (hlen : st.length = 81) :
    (boxes.map fun b => lookup st b ++ [',']) = st.map fun t => t ++ [','] := by
  conv_rhs => rw [← boxes_map_lookup st hlen]
  rw [List.map_map]
  rfl

/-- **C6** (confirmed).  Decoding a placeholder-free length-81 puzzle string
over the value alphabet and re-encoding it reproduces exactly that assignment:
the i-th comma-separated token of `board_to_str` is the singleton of the i-th
input character. -/
theorem decode_encode_roundtrip (g : List Char) (h81 : g.length = 81)
    (ha : ∀ c ∈ g, c ∈ valuesL) :
    (grid_values g).map (fun st => splitTokens (board_to_str st)) =
      some (g.map fun c => [c]) := by
  have hgv : grid_values g = some (g.map fun ch => if ch = '.' then valuesL else [ch]) := by
    rw [grid_values, if_pos (by rw [h81]; decide)]
  have henc : (g.map fun ch => if ch = '.' then valuesL else [ch]) = g.map fun c => [c] := by
    apply List.map_congr_left
    intro c hc
    have : ¬ (c = '.') := by
      intro hdot
      have := ha c hc
      rw [hdot] at this
      exact absurd this (by decide)
    rw [if_neg this]
  have hlen : (g.map fun c => [c]).length = 81 := by rw [List.length_map, h81]
  have hnonempty : (g.map fun c => [c]) ≠ [] := by
    intro h
    rw [h] at hlen
    exact absurd hlen (by decide)
  have hcomma : ∀ t ∈ (g.map fun c => [c]), ',' ∉ t := by
    intro t ht hmem
    obtain ⟨c, hc, rfl⟩ := List.mem_map.mp ht
    have : ',' = c := by simpa using hmem
    have hcv := ha c hc
    rw [← this] at hcv
    exact absurd hcv (by decide)
  have hmain : splitTokens (board_to_str (g.map fun c => [c])) = g.map fun c => [c] := by
    rw [board_to_str, foldl_append_flatten, List.nil_append,
      map_lookup_comma _ hlen, flatten_comma _ hnonempty, List.dropLast_concat,
      splitTokens_joinC _ hnonempty hcomma]
  rw [hgv, henc, Option.map_some', hmain]

/-- Witness for C6 at a concrete fully specified string: the solved grid
`solvedStr`. -/
theorem decode_encode_roundtrip_witness :
    (grid_values solvedStr).map (fun st => splitTokens (board_to_str st)) =
      some (solvedStr.map fun c => [c]) :=
  decode_encode_roundtrip solvedStr (by decide) (by decide)

/-! ## C5: what `naked_twins` does to the other cells of a unit

The fine structure of the value-removal loop of `_remove_values_in_boxes`:
the result is contained in the input, a one-element input is left alone, a
candidate outside the removed values survives, and a cell that had a candidate
outside the removed values ends with no removed value at all. -/

theorem removeLoop_subset : ∀ (vs ns : List Char), removeLoop vs ns ⊆ ns := by
  intro vs
  induction vs with
  | nil => intro ns; simp [removeLoop]
  | cons v vs' ih =>
      intro ns
      rw [removeLoop, List.foldl_cons]
      refine (ih _).trans ?_
      by_cases hlen : 1 < ns.length
      · rw [if_pos hlen]
        exact pyReplace_subset _ _
      · rw [if_neg hlen]
        exact fun a h => h

theorem removeLoop_short : ∀ (vs ns : List Char), ns.length ≤ 1 → removeLoop vs ns = ns := by
  intro vs
  induction vs with
  | nil => intro ns _; rfl
  | cons v vs' ih =>
      intro ns hns
      rw [removeLoop, List.foldl_cons, if_neg (by omega)]
      exact ih ns hns

theorem removeLoop_clean :
    ∀ (vs ns : List Char) (n : Char), n ∉ vs → n ∈ ns →
      ∀ ch ∈ removeLoop vs ns, ch ∉ vs := by
  intro vs
  induction vs with
  | nil => intro ns n _ _ ch _ h; cases h
  | cons w ws ih =>
      intro ns n hnv hn ch hch hchv
      have hnw : n ≠ w := fun h => hnv (h ▸ List.mem_cons_self w ws)
      have hnws : n ∉ ws := fun h => hnv (List.mem_cons_of_mem w h)
      rw [removeLoop, List.foldl_cons] at hch
      by_cases hlen : 1 < ns.length
      · rw [if_pos hlen, pyReplace_single] at hch
        have hn' : n ∈ ns.filter (fun x => x ≠ w) :=
          List.mem_filter.mpr ⟨hn, by simpa using hnw⟩
        rcases List.mem_cons.mp hchv with hw | hws
        · have hsub : removeLoop ws (ns.filter fun x => x ≠ w) ⊆ ns.filter fun x => x ≠ w :=
            removeLoop_subset _ _
          have : ch ∈ ns.filter fun x => x ≠ w := hsub hch
          have := (List.mem_filter.mp this).2
          simp [hw] at this
        · exact ih _ n hnws hn' ch hch hws
      · rw [if_neg hlen] at hch
        have hns1 : ns = [n] := by
          cases ns with
          | nil => cases hn
          | cons a rest =>
              cases rest with
              | nil =>
                  have : n = a := by simpa using hn
                  rw [this]
              | cons b rest2 => simp at hlen
        rw [hns1] at hch
        have hrl : List.foldl (fun ns v => if 1 < ns.length then pyReplace ns [v] else ns)
            [n] ws = [n] := removeLoop_short ws [n] (by simp)
        rw [hrl] at hch
        have : ch = n := by simpa using hch
        rw [this] at hchv
        exact hnv hchv

/-! Per-cell behaviour of one `_remove_values_in_boxes` step. -/

theorem rvbStep_lookup_subset (vals : List Char) (t : BoardState) (x c : String) :
    lookup (rvbStep vals t x) c ⊆ lookup t c := by
  rw [rvbStep]
  by_cases hall : (lookup t x).all (fun ch => ch ∈ vals) = true
  · rw [if_neg (not_not_intro hall)]
    exact fun ch h => h
  · rw [if_pos hall]
    by_cases hch : lookup t x ≠ removeLoop vals (lookup t x)
    · rw [if_pos hch]
      exact lookup_updateB_subset (removeLoop_subset _ _) _
    · rw [if_neg hch]
      exact fun ch h => h

theorem rvb_lookup_subset (vals : List Char) (l : List String) (t : BoardState) (c : String) :
    lookup (remove_values_in_boxes t vals l) c ⊆ lookup t c := by
  rw [remove_values_in_boxes]
  exact foldl_lookup_subset _ (fun st a c' => rvbStep_lookup_subset vals st a c') l t c

theorem rvbStep_unchanged_ne (vals : List Char) (t : BoardState) {x c : String}
    (h : idxOf x boxes ≠ idxOf c boxes) : lookup (rvbStep vals t x) c = lookup t c := by
  rw [rvbStep]
  by_cases hall : (lookup t x).all (fun ch => ch ∈ vals) = true
  · rw [if_neg (not_not_intro hall)]
  · rw [if_pos hall]
    by_cases hch : lookup t x ≠ removeLoop vals (lookup t x)
    · rw [if_pos hch]
      exact lookup_updateB_ne (fun hc => h hc.symm)
    · rw [if_neg hch]

theorem rvbStep_protected (vals : List Char) (t : BoardState) {x c : String}
    (hsub : ∀ ch ∈ lookup t c, ch ∈ vals) :
    lookup (rvbStep vals t x) c = lookup t c := by
  by_cases hidx : idxOf x boxes = idxOf c boxes
  · have hx : lookup t x = lookup t c := by simp [lookup, hidx]
    rw [rvbStep, hx]
    rw [if_neg (not_not_intro (by
      rw [List.all_eq_true]
      intro ch hch
      simpa using hsub ch hch))]
  · exact rvbStep_unchanged_ne vals t hidx

theorem rvb_protected (vals : List Char) :
    ∀ (l : List String) (t : BoardState) (c : String),
      (∀ ch ∈ lookup t c, ch ∈ vals) →
      lookup (remove_values_in_boxes t vals l) c = lookup t c := by
  intro l
  induction l with
  | nil => intro t c _; rfl
  | cons x xs ih =>
      intro t c hsub
      rw [remove_values_in_boxes, List.foldl_cons]
      have hstep : lookup (rvbStep vals t x) c = lookup t c := rvbStep_protected vals t hsub
      have := ih (rvbStep vals t x) c (by rw [hstep]; exact hsub)
      rw [remove_values_in_boxes] at this
      rw [this, hstep]

theorem rvbStep_survivor (vals : List Char) (t : BoardState) {x c : String} {n : Char}
    (hnv : n ∉ vals) (hn : n ∈ lookup t c) : n ∈ lookup (rvbStep vals t x) c := by
  by_cases hidx : idxOf x boxes = idxOf c boxes
  · have hx : lookup t x = lookup t c := by simp [lookup, hidx]
    rw [rvbStep, hx]
    by_cases hall : (lookup t c).all (fun ch => ch ∈ vals) = true
    · rw [if_neg (not_not_intro hall)]
      exact hn
    · rw [if_pos hall]
      have hmem : n ∈ removeLoop vals (lookup t c) := removeLoop_mem vals _ hnv hn
      by_cases hch : lookup t c ≠ removeLoop vals (lookup t c)
      · rw [if_pos hch]
        have hlt : idxOf c boxes < t.length :=
          idx_lt_of_lookup_ne_nil (fun hnil => by simp [hnil] at hn)
        have heq : lookup (updateB t x (removeLoop vals (lookup t c))) c =
            removeLoop vals (lookup t c) := by
          simp only [lookup, updateB, hidx]
          exact getD_set_self hlt
        rw [heq]
        exact hmem
      · rw [if_neg hch]
        exact hn
  · rw [rvbStep_unchanged_ne vals t hidx]
    exact hn

theorem rvb_survivor (vals : List Char) :
    ∀ (l : List String) (t : BoardState) (c : String) (n : Char),
      n ∉ vals → n ∈ lookup t c → n ∈ lookup (remove_values_in_boxes t vals l) c := by
  intro l
  induction l with
  | nil => intro t c n _ hn; exact hn
  | cons x xs ih =>
      intro t c n hnv hn
      rw [remove_values_in_boxes, List.foldl_cons]
      have := ih (rvbStep vals t x) c n hnv (rvbStep_survivor vals t hnv hn)
      rw [remove_values_in_boxes] at this
      exact this

theorem rvb_unchanged_of_ne (vals : List Char) :
    ∀ (l : List String) (t : BoardState) (c : String),
      (∀ x ∈ l, idxOf x boxes ≠ idxOf c boxes) →
      lookup (remove_values_in_boxes t vals l) c = lookup t c := by
  intro l
  induction l with
  | nil => intro t c _; rfl
  | cons x xs ih =>
      intro t c hne
      rw [remove_values_in_boxes, List.foldl_cons]
      have hstep := rvbStep_unchanged_ne vals t (hne x (List.mem_cons_self x xs))
      have := ih (rvbStep vals t x) c fun y hy => hne y (List.mem_cons_of_mem x hy)
      rw [remove_values_in_boxes] at this
      rw [this, hstep]

/-- A cell listed once that has a candidate outside the removed values ends the
helper with no removed value left at all. -/
theorem rvb_clean (vals : List Char) :
    ∀ (l : List String) (t : BoardState) (c : String),
      c ∈ l → (∀ x ∈ l, x ∈ boxes) → c ∈ boxes → l.Nodup →
      (∃ n, n ∈ lookup t c ∧ n ∉ vals) →
      ∀ ch ∈ lookup (remove_values_in_boxes t vals l) c, ch ∉ vals := by
  intro l
  induction l with
  | nil => intro t c hc; cases hc
  | cons x xs ih =>
      intro t c hc hsub hcb hnodup hex ch hch hchv
      rw [remove_values_in_boxes, List.foldl_cons] at hch
      rw [show List.foldl (rvbStep vals) (rvbStep vals t x) xs =
          remove_values_in_boxes (rvbStep vals t x) vals xs from rfl] at hch
      by_cases hxc : x = c
      · subst hxc
        have hcnot : x ∉ xs := (List.nodup_cons.mp hnodup).1
        obtain ⟨n, hn, hnv⟩ := hex
        have hall : ¬ ((lookup t x).all fun ch => ch ∈ vals) = true := by
          rw [List.all_eq_true]
          push_neg
          exact ⟨n, hn, by simpa using hnv⟩
        have hstep : lookup (rvbStep vals t x) x = removeLoop vals (lookup t x) := by
          rw [rvbStep, if_pos hall]
          by_cases hne : lookup t x ≠ removeLoop vals (lookup t x)
          · rw [if_pos hne]
            exact lookup_updateB_self
              (idx_lt_of_lookup_ne_nil (fun hnil => by simp [hnil] at hn))
          · rw [if_neg hne]
            push_neg at hne
            exact hne
        have hunch : lookup (remove_values_in_boxes (rvbStep vals t x) vals xs) x =
            lookup (rvbStep vals t x) x := by
          apply rvb_unchanged_of_ne
          intro y hy hidx
          have hyx : y = x :=
            idxOf_inj (hsub y (List.mem_cons_of_mem x hy)) hcb hidx
          exact hcnot (hyx ▸ hy)
        rw [hunch, hstep] at hch
        exact removeLoop_clean vals _ n hnv hn ch hch hchv
      · have hxb : x ∈ boxes := hsub x (List.mem_cons_self x xs)
        have hidxne : idxOf x boxes ≠ idxOf c boxes := fun h => hxc (idxOf_inj hxb hcb h)
        have hstep := rvbStep_unchanged_ne vals t hidxne
        have hcxs : c ∈ xs := by
          rcases List.mem_cons.mp hc with h | h
          · exact absurd h.symm hxc
          · exact h
        exact ih (rvbStep vals t x) c hcxs (fun y hy => hsub y (List.mem_cons_of_mem x hy))
          hcb (List.nodup_cons.mp hnodup).2 (by rw [hstep]; exact hex) ch hch hchv

theorem ntUnitStep_lookup_subset (options : List Char) (t : BoardState)
    (u' : List String) (c : String) :
    lookup (ntUnitStep options t u') c ⊆ lookup t c := by
  rw [ntUnitStep]
  by_cases htw : (u'.filter fun b => lookup t b = options).length = 2
  · rw [if_pos htw]
    exact rvb_lookup_subset _ _ _ _
  · rw [if_neg htw]
    exact fun a h => h

theorem ntBoxStep_lookup_subset (dm : Bool) (t : BoardState) (box c : String) :
    lookup (ntBoxStep dm t box) c ⊆ lookup t c := by
  rw [ntBoxStep]
  exact foldl_lookup_subset _ (fun st u c' => ntUnitStep_lookup_subset _ st u c') _ t c

/-- **C5** (amended).  For a naked pair: if `b1` is the first cell in canonical
order with a two-element candidate string, `u` is a unit of `b1`, `b2` is a
distinct cell of `u` with exactly the same candidate string, exactly two cells
of `u` carry that string, and every other cell of `u` still has a candidate
outside the pair, then `naked_twins` removes both pair values from every other
cell of `u`.  (The counterexample shows the extra conditions are needed: a cell
whose candidates are a subset of the pair is skipped by the shared removal
helper.) -/
theorem naked_twins_pair_removal (dm : Bool) (s : BoardState) (b1 b2 : String)
    (u : List String)
    (hfirst : ∃ rest, (boxes.filter fun b => (lookup s b).length = 2) = b1 :: rest)
    (hu : u ∈ unitsOf dm b1)
    (hb2 : b2 ∈ u) (hneq : b2 ≠ b1) (heq : lookup s b2 = lookup s b1)
    (hexact : (u.filter fun c => lookup s c = lookup s b1).length = 2)
    (hother : ∀ c ∈ u, c ≠ b1 → c ≠ b2 → ∃ n ∈ lookup s c, n ∉ lookup s b1) :
    ∀ c ∈ u, c ≠ b1 → c ≠ b2 →
      ∀ ch ∈ lookup (naked_twins dm s) c, ch ∉ lookup s b1 := by
  intro c hcu hcb1 hcb2
  obtain ⟨rest, hrest⟩ := hfirst
  -- facts about the unit u
  have hu_all : u ∈ all_units dm := (List.mem_filter.mp hu).1
  have hb1u : b1 ∈ u := by
    have := (List.mem_filter.mp hu).2
    simpa using this
  have hu_nodup : u.Nodup := by
    have hall : ∀ u' ∈ all_units dm, u'.Nodup := by cases dm <;> decide
    exact hall u hu_all
  have hu_boxes : ∀ x ∈ u, x ∈ boxes := by
    have hall : ∀ u' ∈ all_units dm, ∀ x ∈ u', x ∈ boxes := by cases dm <;> decide
    exact hall u hu_all
  have hcboxes : c ∈ boxes := hu_boxes c hcu
  -- the invariant carried through the units processed before u
  set P : BoardState → Prop := fun t =>
    lookup t b1 = lookup s b1 ∧ lookup t b2 = lookup s b1 ∧
      ∀ x ∈ u, x ≠ b1 → x ≠ b2 → ∃ n, n ∈ lookup t x ∧ n ∉ lookup s b1 with hP_def
  have hPs : P s := ⟨rfl, heq, hother⟩
  have hPstep : ∀ (t : BoardState) (u' : List String), P t → P (ntUnitStep (lookup s b1) t u') := by
    intro t u' hP
    obtain ⟨h1, h2, h3⟩ := hP
    rw [ntUnitStep]
    by_cases htw : (u'.filter fun b => lookup t b = lookup s b1).length = 2
    · rw [if_pos htw]
      refine ⟨?_, ?_, ?_⟩
      · rw [rvb_protected (lookup s b1).dedup _ _ b1
          (by rw [h1]; intro ch hch; exact List.mem_dedup.mpr hch)]
        exact h1
      · rw [rvb_protected (lookup s b1).dedup _ _ b2
          (by rw [h2]; intro ch hch; exact List.mem_dedup.mpr hch)]
        exact h2
      · intro x hx hx1 hx2
        obtain ⟨n, hn, hnv⟩ := h3 x hx hx1 hx2
        exact ⟨n, rvb_survivor _ _ _ _ n (fun h => hnv (List.mem_dedup.mp h)) hn, hnv⟩
    · rw [if_neg htw]
      exact ⟨h1, h2, h3⟩
  -- split the unit list of b1 around u
  obtain ⟨pre, post, hsplit⟩ := List.append_of_mem hu
  -- the state just before u is processed, with the invariant
  set t0 : BoardState := pre.foldl (ntUnitStep (lookup s b1)) s with ht0_def
  have hPt0 : P t0 :=
    foldl_preserve P (ntUnitStep (lookup s b1)) (fun st a h => hPstep st a h) pre s hPs
  obtain ⟨h1, h2, h3⟩ := hPt0
  -- processing u triggers the removal
  have htwins : (u.filter fun b => lookup t0 b = lookup s b1) =
      (u.filter fun b => lookup s b = lookup s b1) := by
    apply List.filter_congr
    intro b hb
    rw [decide_eq_decide]
    by_cases hbb1 : b = b1
    · subst hbb1; rw [h1]
    · by_cases hbb2 : b = b2
      · subst hbb2; rw [h2, heq]
      · obtain ⟨n, hn, hnv⟩ := h3 b hb hbb1 hbb2
        obtain ⟨m, hm, hmv⟩ := hother b hb hbb1 hbb2
        constructor
        · intro hcontra
          exact absurd (hcontra ▸ hn) hnv
        · intro hcontra
          exact absurd (hcontra ▸ hm) hmv
  have hstep_u : ntUnitStep (lookup s b1) t0 u =
      remove_values_in_boxes t0 (lookup s b1).dedup
        (u.filter fun bx => bx ∉ (u.filter fun b => lookup t0 b = lookup s b1)) := by
    rw [ntUnitStep, if_pos (by rw [htwins]; exact hexact)]
  -- c is among the processed boxes, and the removal cleans it
  have hcnot : c ∉ (u.filter fun b => lookup t0 b = lookup s b1) := by
    intro hmem
    have := (List.mem_filter.mp hmem).2
    have hceq : lookup t0 c = lookup s b1 := by simpa using this
    obtain ⟨n, hn, hnv⟩ := h3 c hcu hcb1 hcb2
    exact hnv (hceq ▸ hn)
  have hcbxs : c ∈ (u.filter fun bx => bx ∉ (u.filter fun b => lookup t0 b = lookup s b1)) :=
    List.mem_filter.mpr ⟨hcu, decide_eq_true hcnot⟩
  have hclean : ∀ ch ∈ lookup (ntUnitStep (lookup s b1) t0 u) c, ch ∉ lookup s b1 := by
    rw [hstep_u]
    intro ch hch
    have hnot := rvb_clean (lookup s b1).dedup _ t0 c hcbxs
      (fun x hx => hu_boxes x (List.mem_filter.mp hx).1) hcboxes
      (hu_nodup.filter _)
      (by
        obtain ⟨n, hn, hnv⟩ := h3 c hcu hcb1 hcb2
        exact ⟨n, hn, fun h => hnv (List.mem_dedup.mp h)⟩)
      ch hch
    exact fun h => hnot (List.mem_dedup.mpr h)
  -- everything after u only shrinks candidate sets
  have hrest_sub : lookup (naked_twins dm s) c ⊆ lookup (ntUnitStep (lookup s b1) t0 u) c := by
    rw [naked_twins, hrest, List.foldl_cons]
    refine (foldl_lookup_subset (ntBoxStep dm)
      (fun st a c' => ntBoxStep_lookup_subset dm st a c') rest _ c).trans ?_
    rw [ntBoxStep, hsplit, List.foldl_append, List.foldl_cons]
    exact foldl_lookup_subset (ntUnitStep (lookup s b1))
      (fun st a c' => ntUnitStep_lookup_subset _ st a c') post _ c
  intro ch hch
  exact hclean ch (hrest_sub hch)

/-- A state with the naked pair `12` at A1 and A2 and the full alphabet in
every other cell. -/
def s6 : BoardState :=
  updateB (updateB (List.replicate 81 valuesL) "A1" ['1', '2']) "A2" ['1', '2']

/-- Counterexample to C5 as stated.  In `s5`, cells A1 and A2 of row A share
the identical two-element candidate set `12`, and A3 is another cell of that
unit, yet after `naked_twins` the cell A3 still contains the pair value `2`:
the shared removal helper skips cells whose candidates are a subset of the
pair. -/
theorem naked_twins_pair_removal_cex :
    lookup s5 "A1" = ['1', '2'] ∧ lookup s5 "A2" = ['1', '2'] ∧
    ("A1" : String) ≠ "A2" ∧
    "A1" ∈ (all_units false).getD 0 [] ∧ "A2" ∈ (all_units false).getD 0 [] ∧
    "A3" ∈ (all_units false).getD 0 [] ∧
    lookup (naked_twins false s5) "A3" = ['2'] ∧ '2' ∈ lookup s5 "A1" := by
  decide

/-- Witness for C5's amended statement: on `s6`, the pair at A1/A2 in row A
strips both pair values from cell A3 (which has candidates outside the
pair). -/
theorem naked_twins_pair_removal_witness :
    '1' ∉ lookup (naked_twins false s6) "A3" ∧ '2' ∉ lookup (naked_twins false s6) "A3" := by
  have h := naked_twins_pair_removal false s6 "A1" "A2" (cross ['A'] colsL)
    ⟨["A2"], by decide⟩ (by decide) (by decide) (by decide) (by decide) (by decide)
    (by decide) "A3" (by decide) (by decide) (by decide)
  exact ⟨fun hmem => h '1' hmem (by decide), fun hmem => h '2' hmem (by decide)⟩
end Board
